import Mathlib

/-!
# Verification of the astro-data-science density-estimation notebooks

Shallow embedding of the original algorithmic content of the repository:
the point-centered histogram from `1-Kernel-density-estimation.ipynb`,
the selection callbacks (`zrange`, `ramp`, `ramp_range`, `zerror`) from
`2-Gaussian-Mixture-Models.ipynb`, and the EM fitting loop with background
component and frozen parameters that the notebooks drive through `pygmmis`
(the fitting engine itself is external to the repository, so it is modelled
from the design spec).

Exact rational / real arithmetic stands in for floating point; the
per-call uniform random draws of `np.random.rand` are passed as explicit
list arguments.
-/

namespace AstroDS

/-! ## Definitions: point-centered histogram (1-Kernel-density-estimation.ipynb) -/

/-- From the notebook:
`y = (data[None] - x[:, None]) / (bin_width/2.)` followed by
`np.sum(np.abs(y) < 1., axis=1) / (len(data) * bin_width)`.
For each query point `xi`, count the data points whose scaled distance is
strictly below 1 and normalize by `len(data) * bin_width`. -/
def point_centered_histogram (x : List ℚ) (bin_width : ℚ) (data : List ℚ) : List ℚ :=
  x.map (fun xi =>
    ((data.filter (fun d => |(d - xi) / (bin_width / 2)| < 1)).length : ℚ)
      / (data.length * bin_width))

/-! ## Definitions: selection callbacks (2-Gaussian-Mixture-Models.ipynb) -/

/-- Cluster redshift `z_cl = 0.35` from the notebook. -/
def z_cl : ℚ := 7 / 20

/-- Noise dispersion scale `std = 0.05` from the notebook. -/
def std : ℚ := 1 / 20

/-- First column `coords[:,0]` of a coordinate array. -/
def col0 (coords : List (List ℚ)) : List ℚ :=
  coords.map (fun row => row.headD 0)

/-- `zrange(coords) = (coords[:,0] >= 0) & (coords[:,0] <= 1)`. -/
def zrange (coords : List (List ℚ)) : List Bool :=
  (col0 coords).map (fun c => decide (0 ≤ c) && decide (c ≤ 1))

/-- `ramp(coords) = coords[:,0] - z_cl < np.random.rand(len(coords)) * (1-z_cl)`,
with the per-call uniform draws passed explicitly as `r`. -/
def ramp (coords : List (List ℚ)) (r : List ℚ) : List Bool :=
  (List.zip (col0 coords) r).map (fun p => decide (p.1 - z_cl < p.2 * (1 - z_cl)))

/-- `ramp_range(coords) = ramp(coords) & zrange(coords)`. -/
def ramp_range (coords : List (List ℚ)) (r : List ℚ) : List Bool :=
  (List.zip (ramp coords r) (zrange coords)).map (fun p => p.1 && p.2)

/-- `n × n` identity matrix, as `np.eye`. -/
def eye (n : ℕ) : List (List ℚ) :=
  (List.range n).map (fun i => (List.range n).map (fun j => if i = j then 1 else 0))

/-- `zerror(coords) = (std/2)**2 * np.eye(coords.shape[1])`. -/
def zerror (coords : List (List ℚ)) : List (List ℚ) :=
  (eye (coords.headD []).length).map (fun row => row.map (fun v => (std / 2) ^ 2 * v))

/-! ## Definitions: EM fitting engine with background component

The notebooks drive `pygmmis.fit`, whose implementation is external to the
repository. Modelled from the spec: the EM update engine of spec §4.1
(E-step responsibilities with a background density term in the denominator,
M-step amplitude/mean/covariance updates), the background handling of §4.4
(fixed shape, amplitude refit from responsibilities so the sum-to-one
invariant of §3 holds), and the frozen mean/covariance parameters of §3/§4.1.
The notebooks use one-dimensional data, so means and covariances are scalars.
The component density family is a parameter of the problem; the Gaussian
family of the notebook (`gauss`) instantiates it below. -/

/-- Mixture state: per-component amplitudes, means, variances, and the
background amplitude. Modelled from the spec (§3 MixtureModel and
BackgroundComponent, one-dimensional). -/
structure MixState (α : Type) (K : ℕ) where
  amp : Fin K → α
  mean : Fin K → α
  var : Fin K → α
  bgAmp : α

/-- A fitting problem: `N` scalar samples, a component density family
`pdf mean var point`, the constant background density `pbg` (uniform over its
fixed box, §4.4), and the sets of components whose mean / covariance are
frozen (§3). Modelled from the spec. -/
structure EMProblem (α : Type) (N K : ℕ) where
  x : Fin N → α
  pdf : α → α → α → α
  pbg : α
  frozenMean : Finset (Fin K)
  frozenCovar : Finset (Fin K)

/-- E-step denominator for sample `i`:
`Σ_j α_j p_j(x_i) + (background density term)` (spec §4.1). -/
def denom {α : Type} [LinearOrderedField α] {N K : ℕ}
    (P : EMProblem α N K) (s : MixState α K) (i : Fin N) : α :=
  (∑ k, s.amp k * P.pdf (s.mean k) (s.var k) (P.x i)) + s.bgAmp * P.pbg

/-- E-step responsibility `q_{ik} = α_k p_k(x_i) / denom_i` (spec §4.1). -/
def resp {α : Type} [LinearOrderedField α] {N K : ℕ}
    (P : EMProblem α N K) (s : MixState α K) (i : Fin N) (k : Fin K) : α :=
  s.amp k * P.pdf (s.mean k) (s.var k) (P.x i) / denom P s i

/-- E-step responsibility of the background component (spec §4.1, §4.4). -/
def respBg {α : Type} [LinearOrderedField α] {N K : ℕ}
    (P : EMProblem α N K) (s : MixState α K) (i : Fin N) : α :=
  s.bgAmp * P.pbg / denom P s i

/-- Total responsibility mass `q_k = Σ_i q_{ik}` of component `k`. -/
def Qk {α : Type} [LinearOrderedField α] {N K : ℕ}
    (P : EMProblem α N K) (s : MixState α K) (k : Fin K) : α :=
  ∑ i, resp P s i k

/-- M-step mean update `μ_k ← (1/q_k) Σ_i q_{ik} x_i`, skipped for frozen
means (spec §4.1). -/
def newMean {α : Type} [LinearOrderedField α] {N K : ℕ}
    (P : EMProblem α N K) (s : MixState α K) (k : Fin K) : α :=
  if k ∈ P.frozenMean then s.mean k
  else (∑ i, resp P s i k * P.x i) / Qk P s k

/-- M-step covariance update
`Σ_k ← (1/q_k) Σ_i q_{ik} (μ_k - x_i)²` with the updated mean `μ_k`, skipped
for frozen covariances (spec §4.1). -/
def newVar {α : Type} [LinearOrderedField α] {N K : ℕ}
    (P : EMProblem α N K) (s : MixState α K) (k : Fin K) : α :=
  if k ∈ P.frozenCovar then s.var k
  else (∑ i, resp P s i k * (newMean P s k - P.x i) ^ 2) / Qk P s k

/-- One full EM iteration: E-step responsibilities, then M-step updates
`α_k ← (1/N) Σ_i q_{ik}`, means, covariances, and the background amplitude
refit from its own responsibility mass (spec §4.1, §4.4). -/
def EMstep {α : Type} [LinearOrderedField α] {N K : ℕ}
    (P : EMProblem α N K) (s : MixState α K) : MixState α K where
  amp := fun k => Qk P s k / N
  mean := newMean P s
  var := newVar P s
  bgAmp := (∑ i, respBg P s i) / N

/-- `t` EM iterations from the initial state. -/
def emIter {α : Type} [LinearOrderedField α] {N K : ℕ}
    (P : EMProblem α N K) (t : ℕ) (s : MixState α K) : MixState α K :=
  (EMstep P)^[t] s

/-- The Gaussian density of the notebook,
`gauss(z, z0, s) = exp(-(z-z0)²/(2 s²)) / sqrt(2 pi) / s`, written in terms
of the variance `σ2 = s²` that the mixture state carries. -/
noncomputable def gaussDensity (μ σ2 z : ℝ) : ℝ :=
  Real.exp (-(z - μ) ^ 2 / (2 * σ2)) / (Real.sqrt (2 * Real.pi) * Real.sqrt σ2)

/-- The fitting problem with the Gaussian component family of the notebook. -/
noncomputable def gaussProblem {N K : ℕ} (x : Fin N → ℝ) (pbg : ℝ)
    (fm fc : Finset (Fin K)) : EMProblem ℝ N K :=
  { x := x, pdf := gaussDensity, pbg := pbg, frozenMean := fm, frozenCovar := fc }

/-- Observed-data log-likelihood
`Σ_i log(Σ_k α_k p_k(x_i) + background term)`. -/
noncomputable def logL {N K : ℕ} (P : EMProblem ℝ N K) (s : MixState ℝ K) : ℝ :=
  ∑ i, Real.log (denom P s i)

/-- Well-formedness invariant of a mixture state in a run without background:
positive amplitudes summing to one, positive variances, zero background
amplitude. -/
def EMInv {K : ℕ} (s : MixState ℝ K) : Prop :=
  (∀ k, 0 < s.amp k) ∧ (∑ k, s.amp k) = 1 ∧ (∀ k, 0 < s.var k) ∧ s.bgAmp = 0

/-- Arithmetic mean of a vector, `mean(q_{:,k})` in the spec's M-step. -/
def vecMean {α : Type} [LinearOrderedField α] {N : ℕ} (v : Fin N → α) : α :=
  (∑ i, v i) / N

/-- Weighted mean of the samples with weights `w` (spec §4.1 M-step). -/
def weightedMean {α : Type} [LinearOrderedField α] {N : ℕ} (w v : Fin N → α) : α :=
  (∑ i, w i * v i) / (∑ i, w i)

/-- Weighted outer-product covariance of the residuals about `m`
(spec §4.1 M-step, one-dimensional). -/
def weightedSqDev {α : Type} [LinearOrderedField α] {N : ℕ}
    (w v : Fin N → α) (m : α) : α :=
  (∑ i, w i * (m - v i) ^ 2) / (∑ i, w i)

/-! ## Definitions: input validation of the fit entry point

Modelled from the spec: §6 fixes the input shapes (sample matrix `N×D`,
optional per-sample covariance `N×D×D`, initial guess with `K` amplitudes,
`K` means of dimension `D` and `K` covariances `D×D`), and §7 requires that
malformed input fail fast with a descriptive error before any iteration
begins. The numeric payload is irrelevant to the check, so the model keeps
the parameters as nested lists and only inspects lengths. -/

/-- An initial mixture guess as passed to the fit entry point: amplitudes,
means, covariances. Modelled from the spec (§6). -/
structure GMMList where
  amp : List ℝ
  mean : List (List ℝ)
  covar : List (List (List ℝ))

/-- Shape check of the inputs against `K` components of dimension `D`
(spec §6). -/
def dimsOk (K D : ℕ) (gmm : GMMList) (data : List (List ℝ))
    (cv : Option (List (List (List ℝ)))) : Bool :=
  (gmm.amp.length == K) && (gmm.mean.length == K) &&
  gmm.mean.all (fun m => m.length == D) &&
  (gmm.covar.length == K) &&
  gmm.covar.all (fun c => c.length == D && c.all (fun row => row.length == D)) &&
  data.all (fun smp => smp.length == D) &&
  (match cv with
   | none => true
   | some cvs =>
     (cvs.length == data.length) &&
     cvs.all (fun c => c.length == D && c.all (fun row => row.length == D)))

/-- Fail-fast validation producing the descriptive error of spec §7. -/
def checkDims (K D : ℕ) (gmm : GMMList) (data : List (List ℝ))
    (cv : Option (List (List (List ℝ)))) : Except String Unit :=
  if dimsOk K D gmm data cv then Except.ok ()
  else Except.error "mismatched dimensions between samples, covariances, and initial guess"

/-- The fit entry point: validate the input shapes, then run `maxIter`
iterations of the update engine. Modelled from the spec (§6, §7); the
iteration body is abstracted as `step` since only the fail-fast behaviour is
at issue here. -/
def fit (K D : ℕ) (step : GMMList → GMMList) (maxIter : ℕ) (gmm : GMMList)
    (data : List (List ℝ)) (cv : Option (List (List (List ℝ)))) :
    Except String GMMList :=
  match checkDims K D gmm data cv with
  | Except.error e => Except.error e
  | Except.ok _ => Except.ok (step^[maxIter] gmm)

/-! ## Theorems -/

/-- The length of `ramp_range coords r` is the number of rows when one draw is
supplied per row. -/
theorem ramp_range_length (coords : List (List ℚ)) (r : List ℚ)
    (hr : r.length = coords.length) :
    (ramp_range coords r).length = coords.length := by
  simp [ramp_range, ramp, zrange, col0, hr]

/-- Pointwise description of `ramp_range`: entry `i` is the conjunction of the
ramp test (against draw `r[i]`) and the `[0,1]` range test on the first
coordinate of row `i`. -/
theorem ramp_range_getD (coords : List (List ℚ)) (r : List ℚ)
    (hr : r.length = coords.length) (i : ℕ) (hi : i < coords.length) :
    (ramp_range coords r).getD i false =
      (decide ((coords.getD i []).headD 0 - z_cl < (r.getD i 0) * (1 - z_cl)) &&
        (decide (0 ≤ (coords.getD i []).headD 0) &&
          decide ((coords.getD i []).headD 0 ≤ 1))) := by
  have h1 : i < (ramp_range coords r).length := by rw [ramp_range_length coords r hr]; exact hi
  have h2 : i < r.length := by omega
  rw [List.getD_eq_getElem _ _ h1, List.getD_eq_getElem _ _ hi, List.getD_eq_getElem _ _ h2]
  simp [ramp_range, ramp, zrange, col0, Bool.and_assoc]

/-- C9: For every coordinate array and every vector of random draws, the
selection callback `ramp_range` returns `false` at every row whose first
coordinate lies outside the interval `[0, 1]`, regardless of the random draw
inside `ramp`. -/
theorem ramp_range_false_outside (coords : List (List ℚ)) (r : List ℚ)
    (hr : r.length = coords.length) (i : ℕ) (hi : i < coords.length)
    (hout : (coords.getD i []).headD 0 < 0 ∨ 1 < (coords.getD i []).headD 0) :
    (ramp_range coords r).getD i false = false := by
  rw [ramp_range_getD coords r hr i hi]
  rcases hout with h | h
  · rw [decide_eq_false (not_le.mpr h)]
    simp
  · rw [decide_eq_false (not_le.mpr h)]
    simp

/-- Witness for C9 at the concrete row `[3/2]`, which lies outside `[0,1]`. -/
theorem ramp_range_false_outside_witness :
    (ramp_range [[(3 : ℚ)/2]] [(1 : ℚ)/2]).getD 0 false = false :=
  ramp_range_false_outside [[(3 : ℚ)/2]] [(1 : ℚ)/2] (by decide) 0 (by decide)
    (Or.inr (by norm_num))

/-- C7 counterexample: the selection callback `ramp_range` is not a pure
function of the coordinates: two evaluations on the same input, with the two
admissible uniform draws `0` and `9/10` that `np.random.rand` may produce,
return different results. -/
theorem ramp_range_not_pure :
    ramp_range [[(1 : ℚ)/2]] [0] ≠ ramp_range [[(1 : ℚ)/2]] [(9 : ℚ)/10] := by
  have ha : ramp_range [[(1 : ℚ)/2]] [0] = [false] := by
    norm_num [ramp_range, ramp, zrange, col0, z_cl]
  have hb : ramp_range [[(1 : ℚ)/2]] [(9 : ℚ)/10] = [true] := by
    norm_num [ramp_range, ramp, zrange, col0, z_cl]
  rw [ha, hb]
  simp

/-- Helper for C7 (amended): the randomness of `ramp_range` is confined to the
ramp zone: on coordinate arrays whose first coordinates all lie below `z_cl` or
at or above `1`, any two vectors of draws from `[0,1)` give the same result. -/
theorem ramp_range_deterministic_outside_ramp (coords : List (List ℚ))
    (r1 r2 : List ℚ) (h1 : r1.length = coords.length) (h2 : r2.length = coords.length)
    (hr1 : ∀ v ∈ r1, 0 ≤ v ∧ v < 1) (hr2 : ∀ v ∈ r2, 0 ≤ v ∧ v < 1)
    (hc : ∀ row ∈ coords, row.headD 0 < z_cl ∨ 1 ≤ row.headD 0) :
    ramp_range coords r1 = ramp_range coords r2 := by
  apply List.ext_getElem
  · rw [ramp_range_length coords r1 h1, ramp_range_length coords r2 h2]
  intro i hia hib
  have hi : i < coords.length := by rwa [ramp_range_length coords r1 h1] at hia
  have e1 : (ramp_range coords r1)[i] = (ramp_range coords r1).getD i false := by
    rw [List.getD_eq_getElem _ _ hia]
  have e2 : (ramp_range coords r2)[i] = (ramp_range coords r2).getD i false := by
    rw [List.getD_eq_getElem _ _ hib]
  rw [e1, e2, ramp_range_getD coords r1 h1 i hi, ramp_range_getD coords r2 h2 i hi]
  have hrow : coords.getD i [] ∈ coords := by
    rw [List.getD_eq_getElem _ _ hi]; exact List.getElem_mem hi
  have hv1 : r1.getD i 0 ∈ r1 := by
    have : i < r1.length := by omega
    rw [List.getD_eq_getElem _ _ this]; exact List.getElem_mem this
  have hv2 : r2.getD i 0 ∈ r2 := by
    have : i < r2.length := by omega
    rw [List.getD_eq_getElem _ _ this]; exact List.getElem_mem this
  obtain ⟨hv1a, hv1b⟩ := hr1 _ hv1
  obtain ⟨hv2a, hv2b⟩ := hr2 _ hv2
  rcases hc _ hrow with h | h
  · have t1 : (coords.getD i []).headD 0 - z_cl < r1.getD i 0 * (1 - z_cl) := by
      have : (0 : ℚ) ≤ r1.getD i 0 * (1 - z_cl) := by
        apply mul_nonneg hv1a; norm_num [z_cl]
      linarith
    have t2 : (coords.getD i []).headD 0 - z_cl < r2.getD i 0 * (1 - z_cl) := by
      have : (0 : ℚ) ≤ r2.getD i 0 * (1 - z_cl) := by
        apply mul_nonneg hv2a; norm_num [z_cl]
      linarith
    rw [decide_eq_true t1, decide_eq_true t2]
  · have hz : (0 : ℚ) < 1 - z_cl := by norm_num [z_cl]
    have b1 : r1.getD i 0 * (1 - z_cl) < 1 - z_cl := by
      have := mul_lt_mul_of_pos_right hv1b hz
      rwa [one_mul] at this
    have b2 : r2.getD i 0 * (1 - z_cl) < 1 - z_cl := by
      have := mul_lt_mul_of_pos_right hv2b hz
      rwa [one_mul] at this
    have t1 : ¬((coords.getD i []).headD 0 - z_cl < r1.getD i 0 * (1 - z_cl)) :=
      not_lt.mpr (by linarith)
    have t2 : ¬((coords.getD i []).headD 0 - z_cl < r2.getD i 0 * (1 - z_cl)) :=
      not_lt.mpr (by linarith)
    rw [decide_eq_false t1, decide_eq_false t2]

/-- C7 (amended): the noise callback `zerror` is a pure function of the row
width of its input, but the selection callback `ramp_range` is not pure — its
result depends on the per-call uniform draws (see `ramp_range_not_pure`); the
nondeterminism is confined to the ramp zone: on coordinate arrays whose first
coordinates all lie below `z_cl` or at or above `1`, any two vectors of draws
from `[0,1)` give the same result. -/
theorem callbacks_purity_amended :
    (∀ coords coords' : List (List ℚ),
      (coords.headD []).length = (coords'.headD []).length →
        zerror coords = zerror coords') ∧
    (∀ (coords : List (List ℚ)) (r1 r2 : List ℚ),
      r1.length = coords.length → r2.length = coords.length →
      (∀ v ∈ r1, 0 ≤ v ∧ v < 1) → (∀ v ∈ r2, 0 ≤ v ∧ v < 1) →
      (∀ row ∈ coords, row.headD 0 < z_cl ∨ 1 ≤ row.headD 0) →
      ramp_range coords r1 = ramp_range coords r2) := by
  constructor
  · intro coords coords' h
    simp only [zerror, h]
  · exact ramp_range_deterministic_outside_ramp

/-- Witness for C7 (amended) at concrete inputs: two coordinate arrays of row
width 2 give the same noise estimate, and two admissible draws give the same
selection result on the in-range coordinate `1/5 < z_cl`. -/
theorem callbacks_purity_amended_witness :
    zerror [[(0 : ℚ), 0]] = zerror [[(1 : ℚ), 2]] ∧
    ramp_range [[(1 : ℚ)/5]] [0] = ramp_range [[(1 : ℚ)/5]] [(1 : ℚ)/2] :=
  ⟨callbacks_purity_amended.1 _ _ rfl,
    callbacks_purity_amended.2 [[(1 : ℚ)/5]] [0] [(1 : ℚ)/2] rfl rfl
      (by intro v hv; rw [List.mem_singleton] at hv; subst hv; norm_num)
      (by intro v hv; rw [List.mem_singleton] at hv; subst hv; norm_num)
      (by intro row hrow; rw [List.mem_singleton] at hrow; subst hrow
          left; norm_num [z_cl])⟩

/-- Pointwise description of `point_centered_histogram`: the value at query
index `i` is the number of data points within half a bin width of the query
point, divided by `len(data) * bin_width`. -/
theorem point_centered_histogram_getD (x : List ℚ) (w : ℚ) (data : List ℚ)
    (i : ℕ) (hi : i < x.length) :
    (point_centered_histogram x w data).getD i 0 =
      ((data.filter (fun d => |(d - x.getD i 0) / (w / 2)| < 1)).length : ℚ)
        / (data.length * w) := by
  have hlen : i < (point_centered_histogram x w data).length := by
    simpa [point_centered_histogram] using hi
  rw [List.getD_eq_getElem _ _ hlen, List.getD_eq_getElem _ _ hi]
  simp [point_centered_histogram]

/-- C10: every value returned by `point_centered_histogram` for a positive bin
width and non-empty data is nonnegative and at most `1/bin_width`, with
`1/bin_width` attained exactly when every data point lies strictly within half
a bin width of the query point. -/
theorem point_centered_histogram_bounds (x : List ℚ) (w : ℚ) (data : List ℚ)
    (hw : 0 < w) (hd : data ≠ []) (i : ℕ) (hi : i < x.length) :
    0 ≤ (point_centered_histogram x w data).getD i 0 ∧
    (point_centered_histogram x w data).getD i 0 ≤ 1 / w ∧
    ((point_centered_histogram x w data).getD i 0 = 1 / w ↔
      ∀ d ∈ data, |d - x.getD i 0| < w / 2) := by
  rw [point_centered_histogram_getD x w data i hi]
  set xi := x.getD i 0 with hxi
  set p : ℚ → Bool := fun d => |(d - xi) / (w / 2)| < 1 with hp
  have hN : 0 < (data.length : ℚ) := by
    have : data.length ≠ 0 := fun h => hd (List.length_eq_zero.mp h)
    exact_mod_cast Nat.pos_of_ne_zero this
  have hNw : 0 < (data.length : ℚ) * w := mul_pos hN hw
  have hc_le : (data.filter p).length ≤ data.length := List.length_filter_le p data
  refine ⟨div_nonneg (by positivity) hNw.le, ?_, ?_⟩
  · rw [div_le_div_iff₀ hNw hw]
    have : ((data.filter p).length : ℚ) ≤ (data.length : ℚ) := by exact_mod_cast hc_le
    nlinarith
  · have hiff : ((data.filter p).length : ℚ) / ((data.length : ℚ) * w) = 1 / w ↔
        (data.filter p).length = data.length := by
      rw [div_eq_div_iff hNw.ne' hw.ne']
      constructor
      · intro h
        have h2 : ((data.filter p).length : ℚ) * w = (data.length : ℚ) * w := by
          linarith
        have h3 := mul_right_cancel₀ hw.ne' h2
        exact_mod_cast h3
      · intro h
        rw [h]; ring
    rw [hiff]
    constructor
    · intro h d hdm
      have hall : ∀ d ∈ data, p d := by
        rw [← List.filter_eq_self]
        exact ((List.filter_sublist data).eq_of_length h)
      have := hall d hdm
      rw [hp] at this
      simp only [decide_eq_true_eq] at this
      rw [abs_div, abs_of_pos (by linarith : (0 : ℚ) < w / 2)] at this
      rw [div_lt_one (by linarith : (0 : ℚ) < w / 2)] at this
      simpa using this
    · intro h
      have hall : ∀ d ∈ data, p d := by
        intro d hdm
        rw [hp]
        simp only [decide_eq_true_eq]
        rw [abs_div, abs_of_pos (by linarith : (0 : ℚ) < w / 2),
          div_lt_one (by linarith : (0 : ℚ) < w / 2)]
        simpa using h d hdm
      rw [List.filter_eq_self.mpr hall]

/-- The Gaussian density is nonnegative for every parameter value. -/
theorem gaussDensity_nonneg (μ σ2 z : ℝ) : 0 ≤ gaussDensity μ σ2 z :=
  div_nonneg (Real.exp_pos _).le
    (mul_nonneg (Real.sqrt_nonneg _) (Real.sqrt_nonneg _))

/-- The Gaussian density is positive when the variance is positive. -/
theorem gaussDensity_pos (μ : ℝ) {σ2 : ℝ} (h : 0 < σ2) (z : ℝ) :
    0 < gaussDensity μ σ2 z :=
  div_pos (Real.exp_pos _)
    (mul_pos (Real.sqrt_pos.mpr Real.two_pi_pos) (Real.sqrt_pos.mpr h))

/-- C1: after one M-step, the component amplitudes and the background
amplitude are each nonnegative and sum to one, for any number of components
and any current state — in particular even when the caller-supplied amplitudes
violate the sum-to-one invariant. -/
theorem emstep_amp_sum_one {α : Type} [LinearOrderedField α] {N K : ℕ}
    (P : EMProblem α N K) (s : MixState α K) (hN : 0 < N)
    (hamp : ∀ k, 0 ≤ s.amp k) (hbg : 0 ≤ s.bgAmp)
    (hpdf : ∀ k i, 0 ≤ P.pdf (s.mean k) (s.var k) (P.x i)) (hpbg : 0 ≤ P.pbg)
    (hden : ∀ i, 0 < denom P s i) :
    (∀ k, 0 ≤ (EMstep P s).amp k) ∧ 0 ≤ (EMstep P s).bgAmp ∧
      (∑ k, (EMstep P s).amp k) + (EMstep P s).bgAmp = 1 := by
  have hNα : (0 : α) < N := by exact_mod_cast hN
  have hresp : ∀ (i : Fin N) (k : Fin K), 0 ≤ resp P s i k := fun i k =>
    div_nonneg (mul_nonneg (hamp k) (hpdf k i)) (hden i).le
  have hrespBg : ∀ i : Fin N, 0 ≤ respBg P s i := fun i =>
    div_nonneg (mul_nonneg hbg hpbg) (hden i).le
  refine ⟨?_, ?_, ?_⟩
  · intro k
    exact div_nonneg (Finset.sum_nonneg fun i _ => hresp i k) hNα.le
  · exact div_nonneg (Finset.sum_nonneg fun i _ => hrespBg i) hNα.le
  · have hrow : ∀ i : Fin N, (∑ k, resp P s i k) + respBg P s i = 1 := by
      intro i
      unfold resp respBg
      rw [← Finset.sum_div, div_add_div_same]
      exact div_self (hden i).ne'
    have hswap : (∑ k, Qk P s k) = ∑ i, ∑ k, resp P s i k := by
      unfold Qk; exact Finset.sum_comm
    show (∑ k, Qk P s k / (N : α)) + (∑ i, respBg P s i) / (N : α) = 1
    rw [← Finset.sum_div, div_add_div_same, hswap, ← Finset.sum_add_distrib]
    rw [Finset.sum_congr rfl fun i _ => hrow i]
    rw [Finset.sum_const, Finset.card_univ, Fintype.card_fin, nsmul_eq_mul, mul_one]
    exact div_self hNα.ne'

/-- Witness for C1: the fit of the notebook's final cell starts from
`gmm.amp[0] = 1` together with `bg.amp = 0.7` (amplitudes summing to `1.7`);
after one M-step of the Gaussian problem the amplitudes are nonnegative and
sum to exactly one. -/
theorem emstep_amp_sum_one_witness :
    (∀ k, 0 ≤ (EMstep (gaussProblem ![(1 : ℝ)/2] 1 ∅ ∅)
        ⟨![1], ![7/20], ![1/10], 7/10⟩).amp k) ∧
    0 ≤ (EMstep (gaussProblem ![(1 : ℝ)/2] 1 ∅ ∅)
        ⟨![1], ![7/20], ![1/10], 7/10⟩).bgAmp ∧
    (∑ k, (EMstep (gaussProblem ![(1 : ℝ)/2] 1 ∅ ∅)
        ⟨![1], ![7/20], ![1/10], 7/10⟩).amp k) +
      (EMstep (gaussProblem ![(1 : ℝ)/2] 1 ∅ ∅)
        ⟨![1], ![7/20], ![1/10], 7/10⟩).bgAmp = 1 :=
  emstep_amp_sum_one _ _ (by norm_num)
    (fun k => by fin_cases k <;> norm_num)
    (by norm_num)
    (fun k i => gaussDensity_nonneg _ _ _)
    (by norm_num [gaussProblem])
    (fun i => by
      have hg := gaussDensity_nonneg ((7 : ℝ)/20) ((1 : ℝ)/10) ((1 : ℝ)/2)
      simp only [denom, gaussProblem, Fin.sum_univ_one]
      norm_num
      linarith)

/-- C2: one EM iteration computes the responsibilities
`q_{ik} = α_k p_k(x_i) / (Σ_j α_j p_j(x_i) + background term)` and, for each
unfrozen component, updates the amplitude to the mean of `q_{:,k}`, the mean
to the `q_{:,k}`-weighted mean of the samples, and the variance to the
`q_{:,k}`-weighted squared-residual average about the updated mean. -/
theorem emstep_update_formulas {α : Type} [LinearOrderedField α] {N K : ℕ}
    (P : EMProblem α N K) (s : MixState α K) (k : Fin K)
    (hm : k ∉ P.frozenMean) (hc : k ∉ P.frozenCovar) :
    (∀ i, resp P s i k =
      s.amp k * P.pdf (s.mean k) (s.var k) (P.x i) /
        ((∑ j, s.amp j * P.pdf (s.mean j) (s.var j) (P.x i)) + s.bgAmp * P.pbg)) ∧
    (EMstep P s).amp k = vecMean (fun i => resp P s i k) ∧
    (EMstep P s).mean k = weightedMean (fun i => resp P s i k) P.x ∧
    (EMstep P s).var k =
      weightedSqDev (fun i => resp P s i k) P.x ((EMstep P s).mean k) := by
  refine ⟨fun i => rfl, rfl, ?_, ?_⟩
  · show newMean P s k = _
    rw [newMean, if_neg hm]
    rfl
  · show newVar P s k = _
    rw [newVar, if_neg hc]
    rfl

/-- Witness for C2 at a concrete two-sample, one-component problem with no
frozen parameters. -/
theorem emstep_update_formulas_witness :
    (∀ i, resp (⟨![(0 : ℚ), 1], fun _ _ _ => 1, 1, ∅, ∅⟩ : EMProblem ℚ 2 1)
        ⟨![1], ![0], ![1], 0⟩ i 0 =
      (1 : ℚ) * 1 / ((∑ j : Fin 1, (1 : ℚ) * 1) + 0 * 1)) ∧
    (EMstep (⟨![(0 : ℚ), 1], fun _ _ _ => 1, 1, ∅, ∅⟩ : EMProblem ℚ 2 1)
        ⟨![1], ![0], ![1], 0⟩).amp 0 =
      vecMean (fun i => resp (⟨![(0 : ℚ), 1], fun _ _ _ => 1, 1, ∅, ∅⟩ :
        EMProblem ℚ 2 1) ⟨![1], ![0], ![1], 0⟩ i 0) ∧
    (EMstep (⟨![(0 : ℚ), 1], fun _ _ _ => 1, 1, ∅, ∅⟩ : EMProblem ℚ 2 1)
        ⟨![1], ![0], ![1], 0⟩).mean 0 =
      weightedMean (fun i => resp (⟨![(0 : ℚ), 1], fun _ _ _ => 1, 1, ∅, ∅⟩ :
        EMProblem ℚ 2 1) ⟨![1], ![0], ![1], 0⟩ i 0) ![(0 : ℚ), 1] ∧
    (EMstep (⟨![(0 : ℚ), 1], fun _ _ _ => 1, 1, ∅, ∅⟩ : EMProblem ℚ 2 1)
        ⟨![1], ![0], ![1], 0⟩).var 0 =
      weightedSqDev (fun i => resp (⟨![(0 : ℚ), 1], fun _ _ _ => 1, 1, ∅, ∅⟩ :
        EMProblem ℚ 2 1) ⟨![1], ![0], ![1], 0⟩ i 0) ![(0 : ℚ), 1]
        ((EMstep (⟨![(0 : ℚ), 1], fun _ _ _ => 1, 1, ∅, ∅⟩ : EMProblem ℚ 2 1)
          ⟨![1], ![0], ![1], 0⟩).mean 0) :=
  emstep_update_formulas _ _ 0 (Finset.not_mem_empty 0) (Finset.not_mem_empty 0)

/-- C4: a component whose mean and covariance are marked frozen keeps exactly
its initial mean and variance at every EM iteration for the lifetime of the
fit, while it still participates in every E-step: its responsibility is
computed from the current amplitude and the density at the frozen initial
mean and variance. -/
theorem frozen_params_preserved {α : Type} [LinearOrderedField α] {N K : ℕ}
    (P : EMProblem α N K) (s0 : MixState α K) (k : Fin K)
    (hm : k ∈ P.frozenMean) (hc : k ∈ P.frozenCovar) (t : ℕ) :
    (emIter P t s0).mean k = s0.mean k ∧ (emIter P t s0).var k = s0.var k ∧
    ∀ i, resp P (emIter P t s0) i k =
      (emIter P t s0).amp k * P.pdf (s0.mean k) (s0.var k) (P.x i) /
        denom P (emIter P t s0) i := by
  induction t with
  | zero => exact ⟨rfl, rfl, fun i => rfl⟩
  | succ n ih =>
    obtain ⟨ihm, ihv, _⟩ := ih
    have hs : emIter P (n + 1) s0 = EMstep P (emIter P n s0) := by
      unfold emIter
      exact Function.iterate_succ_apply' _ _ _
    have hmean : (emIter P (n + 1) s0).mean k = s0.mean k := by
      rw [hs]
      show newMean P (emIter P n s0) k = _
      rw [newMean, if_pos hm]
      exact ihm
    have hvar : (emIter P (n + 1) s0).var k = s0.var k := by
      rw [hs]
      show newVar P (emIter P n s0) k = _
      rw [newVar, if_pos hc]
      exact ihv
    exact ⟨hmean, hvar, fun i => by
      unfold resp
      rw [hmean, hvar]⟩

/-- Witness for C4: the notebook's `frozen={"mean": [0], "covar": [0]}` run —
component `0` frozen in mean and covariance — after three iterations at a
concrete two-sample problem. -/
theorem frozen_params_preserved_witness :
    (emIter (⟨![(0 : ℚ), 1], fun _ _ _ => 1, 1, {0}, {0}⟩ : EMProblem ℚ 2 1) 3
        ⟨![1], ![7/20], ![1/10], 0⟩).mean 0 = (![(7 : ℚ)/20]) 0 ∧
    (emIter (⟨![(0 : ℚ), 1], fun _ _ _ => 1, 1, {0}, {0}⟩ : EMProblem ℚ 2 1) 3
        ⟨![1], ![7/20], ![1/10], 0⟩).var 0 = (![(1 : ℚ)/10]) 0 ∧
    ∀ i, resp (⟨![(0 : ℚ), 1], fun _ _ _ => 1, 1, {0}, {0}⟩ : EMProblem ℚ 2 1)
        (emIter (⟨![(0 : ℚ), 1], fun _ _ _ => 1, 1, {0}, {0}⟩ : EMProblem ℚ 2 1) 3
          ⟨![1], ![7/20], ![1/10], 0⟩) i 0 =
      (emIter (⟨![(0 : ℚ), 1], fun _ _ _ => 1, 1, {0}, {0}⟩ : EMProblem ℚ 2 1) 3
          ⟨![1], ![7/20], ![1/10], 0⟩).amp 0 * 1 /
        denom (⟨![(0 : ℚ), 1], fun _ _ _ => 1, 1, {0}, {0}⟩ : EMProblem ℚ 2 1)
          (emIter (⟨![(0 : ℚ), 1], fun _ _ _ => 1, 1, {0}, {0}⟩ : EMProblem ℚ 2 1) 3
            ⟨![1], ![7/20], ![1/10], 0⟩) i :=
  frozen_params_preserved _ _ 0 (Finset.mem_singleton_self 0)
    (Finset.mem_singleton_self 0) 3

/-- C8: on input whose dimensions are mismatched between the sample matrix,
the per-sample covariance array, and the initial parameter guess, the fit
returns the descriptive dimension error — for every iteration body and every
iteration budget, so no EM iteration is ever run and no updated model is
produced. -/
theorem fit_fail_fast (K D : ℕ) (gmm : GMMList) (data : List (List ℝ))
    (cv : Option (List (List (List ℝ)))) (h : dimsOk K D gmm data cv = false)
    (step : GMMList → GMMList) (maxIter : ℕ) :
    fit K D step maxIter gmm data cv =
      Except.error "mismatched dimensions between samples, covariances, and initial guess" := by
  unfold fit checkDims
  rw [h]
  rfl

/-- Witness for C8: two one-dimensional samples paired with a single
per-sample covariance matrix (the shape mismatch of the notebook's
`covar = (disps**2).reshape(-1,1,1)` contract), rejected for every iteration
body and budget. -/
theorem fit_fail_fast_witness :
    fit 1 1 id 100 ⟨[1], [[0]], [[[1]]]⟩ [[0], [1]] (some [[[1]]]) =
      Except.error "mismatched dimensions between samples, covariances, and initial guess" :=
  fit_fail_fast 1 1 ⟨[1], [[0]], [[[1]]]⟩ [[0], [1]] (some [[[1]]]) rfl id 100

/-- Witness for C10 at `x = [0]`, `bin_width = 1`, `data = [0, 2]`: the value
is nonnegative, at most `1`, and below `1` because `2` is not within half a bin
width of `0`. -/
theorem point_centered_histogram_bounds_witness :
    0 ≤ (point_centered_histogram [0] 1 [0, 2]).getD 0 0 ∧
    (point_centered_histogram [0] 1 [0, 2]).getD 0 0 ≤ 1 / 1 ∧
    ((point_centered_histogram [0] 1 [0, 2]).getD 0 0 = 1 / 1 ↔
      ∀ d ∈ ([0, 2] : List ℚ), |d - ([0] : List ℚ).getD 0 0| < 1 / 2) :=
  point_centered_histogram_bounds [0] 1 [0, 2] (by norm_num) (by simp) 0 (by simp)

/-- Gibbs' inequality / log-sum bound: for positive weights summing to one and
positive values, `Σ w log(b/w) ≤ log(Σ b)`. -/
theorem gibbs_log_sum {K : ℕ} (w b : Fin K → ℝ) (hw : ∀ k, 0 < w k)
    (hb : ∀ k, 0 < b k) (hsum : ∑ k, w k = 1) :
    ∑ k, w k * Real.log (b k / w k) ≤ Real.log (∑ k, b k) := by
  rcases Nat.eq_zero_or_pos K with h0 | h0
  · exfalso
    subst h0
    simp at hsum
  have hne : (Finset.univ : Finset (Fin K)).Nonempty := ⟨⟨0, h0⟩, Finset.mem_univ _⟩
  have hB : 0 < ∑ k, b k := Finset.sum_pos (fun k _ => hb k) hne
  have key : ∀ k, w k * Real.log (b k / w k) =
      w k * Real.log (b k / (w k * (∑ j, b j))) + w k * Real.log (∑ j, b j) := by
    intro k
    have h1 : b k / w k = b k / (w k * (∑ j, b j)) * (∑ j, b j) := by
      field_simp
      rw [mul_div_mul_right _ _ hB.ne']
    rw [h1, Real.log_mul (div_pos (hb k) (mul_pos (hw k) hB)).ne' hB.ne']
    ring
  calc ∑ k, w k * Real.log (b k / w k)
      = (∑ k, w k * Real.log (b k / (w k * (∑ j, b j)))) +
          (∑ k, w k) * Real.log (∑ j, b j) := by
        rw [Finset.sum_congr rfl fun k _ => key k, Finset.sum_add_distrib,
          ← Finset.sum_mul]
    _ ≤ (∑ k, w k * (b k / (w k * (∑ j, b j)) - 1)) + Real.log (∑ j, b j) := by
        rw [hsum, one_mul]
        apply add_le_add_right
        apply Finset.sum_le_sum
        intro k _
        exact mul_le_mul_of_nonneg_left
          (Real.log_le_sub_one_of_pos (div_pos (hb k) (mul_pos (hw k) hB)))
          (hw k).le
    _ = (∑ k, (b k / (∑ j, b j) - w k)) + Real.log (∑ j, b j) := by
        apply add_right_cancel_iff.mpr
        apply Finset.sum_congr rfl
        intro k _
        have hwk : w k ≠ 0 := (hw k).ne'
        field_simp
        ring
    _ = Real.log (∑ j, b j) := by
        rw [Finset.sum_sub_distrib, ← Finset.sum_div, div_self hB.ne', hsum]
        ring

/-- Weighted sum-of-squares decomposition about the weighted mean: for total
weight `W ≠ 0` and `m = (Σ w v)/W`,
`Σ w (v - μ)² = Σ w (v - m)² + W (μ - m)²`. -/
theorem weighted_sq_identity {N : ℕ} (w v : Fin N → ℝ) (μ : ℝ)
    (hW : (∑ i, w i) ≠ 0) :
    ∑ i, w i * (v i - μ) ^ 2 =
      (∑ i, w i * (v i - (∑ j, w j * v j) / (∑ j, w j)) ^ 2) +
        (∑ i, w i) * (μ - (∑ j, w j * v j) / (∑ j, w j)) ^ 2 := by
  set W : ℝ := ∑ j, w j with hWdef
  set m : ℝ := (∑ j, w j * v j) / W with hm
  have key : ∑ j, w j * v j = W * m := by
    rw [hm, mul_div_cancel₀ _ hW]
  have expand : ∀ i, w i * (v i - μ) ^ 2 =
      w i * (v i - m) ^ 2 + ((m - μ) * 2) * (w i * v i) -
        ((m - μ) * (μ + m)) * w i := by
    intro i
    ring
  rw [Finset.sum_congr rfl fun i _ => expand i]
  rw [Finset.sum_sub_distrib, Finset.sum_add_distrib, ← Finset.mul_sum,
    ← Finset.mul_sum, key, ← hWdef]
  ring

/-- Logarithm of the Gaussian density for positive variance. -/
theorem log_gaussDensity (μ : ℝ) {σ2 : ℝ} (h : 0 < σ2) (z : ℝ) :
    Real.log (gaussDensity μ σ2 z) =
      -(z - μ) ^ 2 / (2 * σ2) - Real.log (Real.sqrt (2 * Real.pi)) -
        Real.log σ2 / 2 := by
  unfold gaussDensity
  rw [Real.log_div (Real.exp_pos _).ne'
      (mul_pos (Real.sqrt_pos.mpr Real.two_pi_pos) (Real.sqrt_pos.mpr h)).ne',
    Real.log_exp,
    Real.log_mul (Real.sqrt_pos.mpr Real.two_pi_pos).ne' (Real.sqrt_pos.mpr h).ne',
    Real.log_sqrt h.le]
  ring

/-- With zero background amplitude the E-step denominator is the mixture
density `Σ_k α_k p_k(x_i)`. -/
theorem denom_eq_of_bg0 {N K : ℕ} (x : Fin N → ℝ) (pbg : ℝ)
    (fm fc : Finset (Fin K)) (s : MixState ℝ K) (hbg : s.bgAmp = 0) (i : Fin N) :
    denom (gaussProblem x pbg fm fc) s i =
      ∑ k, s.amp k * gaussDensity (s.mean k) (s.var k) (x i) := by
  unfold denom gaussProblem
  rw [hbg, zero_mul, add_zero]

/-- A state satisfying the invariant has at least one component. -/
theorem EMInv_K_pos {K : ℕ} (s : MixState ℝ K) (hs : EMInv s) : 0 < K := by
  rcases Nat.eq_zero_or_pos K with h0 | h0
  · exfalso
    obtain ⟨_, hsum, _, _⟩ := hs
    subst h0
    simp at hsum
  · exact h0

/-- Positive denominators under the invariant. -/
theorem denom_pos_of_inv {N K : ℕ} (x : Fin N → ℝ) (pbg : ℝ)
    (fm fc : Finset (Fin K)) (s : MixState ℝ K) (hs : EMInv s) (i : Fin N) :
    0 < denom (gaussProblem x pbg fm fc) s i := by
  obtain ⟨hamp, hsum, hvar, hbg⟩ := hs
  rw [denom_eq_of_bg0 x pbg fm fc s hbg i]
  exact Finset.sum_pos
    (fun k _ => mul_pos (hamp k) (gaussDensity_pos _ (hvar k) _))
    ⟨⟨0, EMInv_K_pos s ⟨hamp, hsum, hvar, hbg⟩⟩, Finset.mem_univ _⟩

/-- Positive responsibilities under the invariant. -/
theorem resp_pos_of_inv {N K : ℕ} (x : Fin N → ℝ) (pbg : ℝ)
    (fm fc : Finset (Fin K)) (s : MixState ℝ K) (hs : EMInv s)
    (i : Fin N) (k : Fin K) :
    0 < resp (gaussProblem x pbg fm fc) s i k :=
  div_pos (mul_pos (hs.1 k) (gaussDensity_pos _ (hs.2.2.1 k) _))
    (denom_pos_of_inv x pbg fm fc s hs i)

/-- Responsibilities of each sample sum to one under the invariant. -/
theorem resp_rowsum_of_inv {N K : ℕ} (x : Fin N → ℝ) (pbg : ℝ)
    (fm fc : Finset (Fin K)) (s : MixState ℝ K) (hs : EMInv s) (i : Fin N) :
    ∑ k, resp (gaussProblem x pbg fm fc) s i k = 1 := by
  unfold resp
  rw [← Finset.sum_div]
  rw [show ∑ k, s.amp k * (gaussProblem x pbg fm fc).pdf (s.mean k) (s.var k)
      ((gaussProblem x pbg fm fc).x i) =
      denom (gaussProblem x pbg fm fc) s i from
    (denom_eq_of_bg0 x pbg fm fc s hs.2.2.2 i).symm]
  exact div_self (denom_pos_of_inv x pbg fm fc s hs i).ne'

/-- Positive component responsibility mass under the invariant. -/
theorem Qk_pos_of_inv {N K : ℕ} (x : Fin N → ℝ) (pbg : ℝ)
    (fm fc : Finset (Fin K)) (s : MixState ℝ K) (hs : EMInv s) (hN : 0 < N)
    (k : Fin K) :
    0 < Qk (gaussProblem x pbg fm fc) s k :=
  Finset.sum_pos (fun i _ => resp_pos_of_inv x pbg fm fc s hs i k)
    ⟨⟨0, hN⟩, Finset.mem_univ _⟩

/-- The responsibility masses of all components sum to `N` under the
invariant. -/
theorem sum_Qk_of_inv {N K : ℕ} (x : Fin N → ℝ) (pbg : ℝ)
    (fm fc : Finset (Fin K)) (s : MixState ℝ K) (hs : EMInv s) :
    ∑ k, Qk (gaussProblem x pbg fm fc) s k = N := by
  unfold Qk
  rw [Finset.sum_comm]
  rw [Finset.sum_congr rfl fun i _ => resp_rowsum_of_inv x pbg fm fc s hs i]
  rw [Finset.sum_const, Finset.card_univ, Fintype.card_fin, nsmul_eq_mul, mul_one]

/-- Zero background amplitude is preserved by an EM step. -/
theorem EMstep_bgAmp_zero {N K : ℕ} (x : Fin N → ℝ) (pbg : ℝ)
    (fm fc : Finset (Fin K)) (s : MixState ℝ K) (hbg : s.bgAmp = 0) :
    (EMstep (gaussProblem x pbg fm fc) s).bgAmp = 0 := by
  show (∑ i, respBg (gaussProblem x pbg fm fc) s i) / (N : ℝ) = 0
  have hrz : ∀ i : Fin N, respBg (gaussProblem x pbg fm fc) s i = 0 := by
    intro i
    unfold respBg
    rw [hbg, zero_mul, zero_div]
  rw [Finset.sum_congr rfl fun i _ => hrz i, Finset.sum_const, smul_zero, zero_div]

/-- The updated variances are positive under the invariant, provided the
sample set contains two distinct values. -/
theorem EMstep_var_pos {N K : ℕ} (x : Fin N → ℝ) (pbg : ℝ)
    (fm fc : Finset (Fin K)) (s : MixState ℝ K) (hs : EMInv s) (hN : 0 < N)
    (hx : ∃ i j, x i ≠ x j) (k : Fin K) :
    0 < (EMstep (gaussProblem x pbg fm fc) s).var k := by
  show 0 < newVar (gaussProblem x pbg fm fc) s k
  unfold newVar
  split_ifs with h
  · exact hs.2.2.1 k
  · apply div_pos ?_ (Qk_pos_of_inv x pbg fm fc s hs hN k)
    obtain ⟨i, j, hij⟩ := hx
    have hone : x i ≠ newMean (gaussProblem x pbg fm fc) s k ∨
        x j ≠ newMean (gaussProblem x pbg fm fc) s k := by
      by_contra hcon
      push_neg at hcon
      exact hij (hcon.1.trans hcon.2.symm)
    have hterm : ∀ i' : Fin N,
        0 ≤ resp (gaussProblem x pbg fm fc) s i' k *
          (newMean (gaussProblem x pbg fm fc) s k - x i') ^ 2 :=
      fun i' => mul_nonneg (resp_pos_of_inv x pbg fm fc s hs i' k).le (sq_nonneg _)
    rcases hone with hne | hne
    · exact Finset.sum_pos' (fun i' _ => hterm i')
        ⟨i, Finset.mem_univ _, mul_pos (resp_pos_of_inv x pbg fm fc s hs i k)
          (sq_pos_of_ne_zero (sub_ne_zero.mpr (Ne.symm hne)))⟩
    · exact Finset.sum_pos' (fun i' _ => hterm i')
        ⟨j, Finset.mem_univ _, mul_pos (resp_pos_of_inv x pbg fm fc s hs j k)
          (sq_pos_of_ne_zero (sub_ne_zero.mpr (Ne.symm hne)))⟩

/-- The EM step preserves the invariant. -/
theorem EMInv_EMstep {N K : ℕ} (x : Fin N → ℝ) (pbg : ℝ)
    (fm fc : Finset (Fin K)) (s : MixState ℝ K) (hs : EMInv s) (hN : 0 < N)
    (hx : ∃ i j, x i ≠ x j) :
    EMInv (EMstep (gaussProblem x pbg fm fc) s) := by
  have hNpos : (0 : ℝ) < N := by exact_mod_cast hN
  refine ⟨?_, ?_, EMstep_var_pos x pbg fm fc s hs hN hx, EMstep_bgAmp_zero x pbg fm fc s hs.2.2.2⟩
  · intro k
    exact div_pos (Qk_pos_of_inv x pbg fm fc s hs hN k) hNpos
  · show (∑ k, Qk (gaussProblem x pbg fm fc) s k / (N : ℝ)) = 1
    rw [← Finset.sum_div, sum_Qk_of_inv x pbg fm fc s hs]
    exact div_self hNpos.ne'

/-- Jensen step of the EM monotonicity argument: if the current mixture terms
`c k` are proportional to responsibilities (`c k = q k * d`) and the updated
mixture terms `b k` sum to `d'`, then the responsibility-weighted log gain is
at most `log d' - log d`. -/
theorem jensen_log_ratio {K : ℕ} (q b c : Fin K → ℝ) (d d' : ℝ)
    (hq : ∀ k, 0 < q k) (hb : ∀ k, 0 < b k)
    (hd : 0 < d) (hqsum : ∑ k, q k = 1)
    (hcq : ∀ k, c k = q k * d) (hsumb : ∑ k, b k = d') :
    ∑ k, q k * (Real.log (b k) - Real.log (c k)) ≤ Real.log d' - Real.log d := by
  calc ∑ k, q k * (Real.log (b k) - Real.log (c k))
      = ∑ k, (q k * (Real.log (b k) - Real.log (q k)) - q k * Real.log d) := by
        apply Finset.sum_congr rfl
        intro k _
        rw [hcq k, Real.log_mul (hq k).ne' hd.ne']
        ring
    _ = (∑ k, q k * Real.log (b k / q k)) - Real.log d := by
        rw [Finset.sum_sub_distrib, ← Finset.sum_mul, hqsum, one_mul]
        congr 1
        apply Finset.sum_congr rfl
        intro k _
        rw [Real.log_div (hb k).ne' (hq k).ne']
    _ ≤ Real.log (∑ k, b k) - Real.log d := by
        have := gibbs_log_sum q b hq hb hqsum
        linarith
    _ = Real.log d' - Real.log d := by rw [hsumb]

/-- Amplitude step of the EM monotonicity argument: replacing positive
amplitudes summing to one by the normalized responsibility masses `Q k / n`
does not decrease the responsibility-weighted log amplitude. -/
theorem amp_update_gain {K : ℕ} (Q a : Fin K → ℝ) (n : ℝ)
    (hQ : ∀ k, 0 < Q k) (ha : ∀ k, 0 < a k) (hn : 0 < n)
    (hQsum : ∑ k, Q k = n) (hasum : ∑ k, a k = 1) :
    0 ≤ ∑ k, Q k * (Real.log (Q k / n) - Real.log (a k)) := by
  have hwpos : ∀ k, 0 < Q k / n := fun k => div_pos (hQ k) hn
  have hwsum : ∑ k, Q k / n = 1 := by
    rw [← Finset.sum_div, hQsum]
    exact div_self hn.ne'
  have hg := gibbs_log_sum (fun k => Q k / n) a hwpos ha hwsum
  rw [hasum, Real.log_one] at hg
  have key : ∑ k, Q k * (Real.log (Q k / n) - Real.log (a k)) =
      -(n * ∑ k, (Q k / n) * Real.log (a k / (Q k / n))) := by
    rw [Finset.mul_sum, ← Finset.sum_neg_distrib]
    apply Finset.sum_congr rfl
    intro k _
    rw [Real.log_div (ha k).ne' (hwpos k).ne']
    have hQk : Q k = Q k / n * n := (div_mul_cancel₀ _ hn.ne').symm
    calc Q k * (Real.log (Q k / n) - Real.log (a k))
        = (Q k / n * n) * (Real.log (Q k / n) - Real.log (a k)) := by rw [← hQk]
      _ = -(n * (Q k / n * (Real.log (a k) - Real.log (Q k / n)))) := by ring
  rw [key, neg_nonneg]
  have := mul_le_mul_of_nonneg_left hg hn.le
  simpa using this

/-- Component step of the EM monotonicity argument: updating a Gaussian
component's mean to the weighted sample mean (or keeping it frozen) and its
variance to the weighted squared residual about the updated mean (or keeping
it frozen) does not decrease the responsibility-weighted log density. -/
theorem gauss_update_gain {N : ℕ} (q xs : Fin N → ℝ) (m v m' v' : ℝ)
    (hN : 0 < N) (hq : ∀ i, 0 < q i) (hv : 0 < v) (hv' : 0 < v')
    (hm' : m' = m ∨ m' = (∑ i, q i * xs i) / (∑ i, q i))
    (hvv : v' = v ∨ v' = (∑ i, q i * (m' - xs i) ^ 2) / (∑ i, q i)) :
    0 ≤ ∑ i, q i *
      (Real.log (gaussDensity m' v' (xs i)) - Real.log (gaussDensity m v (xs i))) := by
  have hQ : 0 < ∑ i, q i :=
    Finset.sum_pos (fun i _ => hq i) ⟨⟨0, hN⟩, Finset.mem_univ _⟩
  have hSm' : ∑ i, q i * (xs i - m') ^ 2 ≤ ∑ i, q i * (xs i - m) ^ 2 := by
    rcases hm' with h | h
    · rw [h]
    · have hid := weighted_sq_identity q xs m hQ.ne'
      rw [← h] at hid
      have hQsq : 0 ≤ (∑ i, q i) * (m - m') ^ 2 :=
        mul_nonneg hQ.le (sq_nonneg _)
      linarith
  have hexp : ∀ i, q i *
      (Real.log (gaussDensity m' v' (xs i)) - Real.log (gaussDensity m v (xs i))) =
      (q i * ((xs i - m) ^ 2 / (2 * v) - (xs i - m') ^ 2 / (2 * v'))) -
        q i * ((Real.log v' - Real.log v) / 2) := by
    intro i
    rw [log_gaussDensity m' hv' (xs i), log_gaussDensity m hv (xs i)]
    ring
  rw [Finset.sum_congr rfl fun i _ => hexp i, Finset.sum_sub_distrib, ← Finset.sum_mul]
  have hfirst : ∑ i, q i * ((xs i - m) ^ 2 / (2 * v) - (xs i - m') ^ 2 / (2 * v')) =
      (∑ i, q i * (xs i - m) ^ 2) / (2 * v) -
        (∑ i, q i * (xs i - m') ^ 2) / (2 * v') := by
    rw [Finset.sum_congr rfl fun i _ => show
        q i * ((xs i - m) ^ 2 / (2 * v) - (xs i - m') ^ 2 / (2 * v')) =
          q i * (xs i - m) ^ 2 / (2 * v) - q i * (xs i - m') ^ 2 / (2 * v')
      from by ring]
    rw [Finset.sum_sub_distrib, ← Finset.sum_div, ← Finset.sum_div]
  rw [hfirst]
  rcases hvv with h | h
  · rw [h]
    have hlog0 : (Real.log v - Real.log v) / 2 = 0 := by ring
    rw [hlog0, mul_zero, sub_zero]
    have hmono : (∑ i, q i * (xs i - m') ^ 2) / (2 * v) ≤
        (∑ i, q i * (xs i - m) ^ 2) / (2 * v) :=
      div_le_div_of_nonneg_right hSm' (by linarith)
    linarith
  · have hflip : ∑ i, q i * (m' - xs i) ^ 2 = ∑ i, q i * (xs i - m') ^ 2 :=
      Finset.sum_congr rfl fun i _ => by ring
    rw [hflip] at h
    have hS'v : ∑ i, q i * (xs i - m') ^ 2 = v' * (∑ i, q i) := by
      rw [h, div_mul_cancel₀ _ hQ.ne']
    have hhalf : (∑ i, q i * (xs i - m') ^ 2) / (2 * v') = (∑ i, q i) / 2 := by
      rw [hS'v]
      field_simp
      ring
    have hA : Real.log v' - Real.log v = Real.log (v' / v) :=
      (Real.log_div hv'.ne' hv.ne').symm
    have hlog : Real.log (v' / v) ≤ v' / v - 1 :=
      Real.log_le_sub_one_of_pos (div_pos hv' hv)
    have hQl : (∑ i, q i) * Real.log (v' / v) ≤ (∑ i, q i) * (v' / v - 1) :=
      mul_le_mul_of_nonneg_left hlog hQ.le
    have hSmb : v' * (∑ i, q i) / (2 * v) ≤ (∑ i, q i * (xs i - m) ^ 2) / (2 * v) := by
      apply div_le_div_of_nonneg_right _ (by linarith)
      rw [← hS'v]
      exact hSm'
    have hexp2 : v' * (∑ i, q i) / (2 * v) = (∑ i, q i) * (v' / v) / 2 := by
      field_simp
      ring
    have haux : (∑ i, q i) * (v' / v - 1) = (∑ i, q i) * (v' / v) - (∑ i, q i) := by
      ring
    have haux2 : (∑ i, q i) * ((Real.log v' - Real.log v) / 2) =
        ((∑ i, q i) * Real.log (v' / v)) / 2 := by
      rw [hA]
      ring
    rw [hhalf, haux2]
    linarith

/-- Responsibilities times the denominator recover the mixture terms. -/
theorem resp_mul_denom {N K : ℕ} (x : Fin N → ℝ) (pbg : ℝ)
    (fm fc : Finset (Fin K)) (s : MixState ℝ K) (i : Fin N) (k : Fin K)
    (hd : denom (gaussProblem x pbg fm fc) s i ≠ 0) :
    resp (gaussProblem x pbg fm fc) s i k * denom (gaussProblem x pbg fm fc) s i =
      s.amp k * gaussDensity (s.mean k) (s.var k) (x i) := by
  unfold resp
  rw [div_mul_cancel₀ _ hd]
  rfl

/-- One EM step does not decrease the observed-data log-likelihood (run
without background, arbitrary frozen sets). -/
theorem logL_le_EMstep {N K : ℕ} (x : Fin N → ℝ) (pbg : ℝ)
    (fm fc : Finset (Fin K)) (s : MixState ℝ K) (hs : EMInv s) (hN : 0 < N)
    (hx : ∃ i j, x i ≠ x j) :
    logL (gaussProblem x pbg fm fc) s ≤
      logL (gaussProblem x pbg fm fc) (EMstep (gaussProblem x pbg fm fc) s) := by
  have hinv' : EMInv (EMstep (gaussProblem x pbg fm fc) s) :=
    EMInv_EMstep x pbg fm fc s hs hN hx
  -- per-sample Jensen bound
  have hJ : ∀ i, ∑ k, resp (gaussProblem x pbg fm fc) s i k *
      (Real.log ((EMstep (gaussProblem x pbg fm fc) s).amp k *
          gaussDensity ((EMstep (gaussProblem x pbg fm fc) s).mean k)
            ((EMstep (gaussProblem x pbg fm fc) s).var k) (x i)) -
        Real.log (s.amp k * gaussDensity (s.mean k) (s.var k) (x i))) ≤
      Real.log (denom (gaussProblem x pbg fm fc)
          (EMstep (gaussProblem x pbg fm fc) s) i) -
        Real.log (denom (gaussProblem x pbg fm fc) s i) := by
    intro i
    apply jensen_log_ratio
      (fun k => resp (gaussProblem x pbg fm fc) s i k)
      (fun k => (EMstep (gaussProblem x pbg fm fc) s).amp k *
        gaussDensity ((EMstep (gaussProblem x pbg fm fc) s).mean k)
          ((EMstep (gaussProblem x pbg fm fc) s).var k) (x i))
      (fun k => s.amp k * gaussDensity (s.mean k) (s.var k) (x i))
      (denom (gaussProblem x pbg fm fc) s i)
      (denom (gaussProblem x pbg fm fc) (EMstep (gaussProblem x pbg fm fc) s) i)
      (fun k => resp_pos_of_inv x pbg fm fc s hs i k)
      (fun k => mul_pos (hinv'.1 k) (gaussDensity_pos _ (hinv'.2.2.1 k) _))
      (denom_pos_of_inv x pbg fm fc s hs i)
      (resp_rowsum_of_inv x pbg fm fc s hs i)
      (fun k => (resp_mul_denom x pbg fm fc s i k
        (denom_pos_of_inv x pbg fm fc s hs i).ne').symm)
      (denom_eq_of_bg0 x pbg fm fc _ hinv'.2.2.2 i).symm
  -- split the per-(i,k) log gain into amplitude and density parts
  have hsplit : ∀ (i : Fin N) (k : Fin K),
      Real.log ((EMstep (gaussProblem x pbg fm fc) s).amp k *
          gaussDensity ((EMstep (gaussProblem x pbg fm fc) s).mean k)
            ((EMstep (gaussProblem x pbg fm fc) s).var k) (x i)) -
        Real.log (s.amp k * gaussDensity (s.mean k) (s.var k) (x i)) =
      (Real.log ((EMstep (gaussProblem x pbg fm fc) s).amp k) -
          Real.log (s.amp k)) +
        (Real.log (gaussDensity ((EMstep (gaussProblem x pbg fm fc) s).mean k)
            ((EMstep (gaussProblem x pbg fm fc) s).var k) (x i)) -
          Real.log (gaussDensity (s.mean k) (s.var k) (x i))) := by
    intro i k
    rw [Real.log_mul (hinv'.1 k).ne' (gaussDensity_pos _ (hinv'.2.2.1 k) _).ne',
      Real.log_mul (hs.1 k).ne' (gaussDensity_pos _ (hs.2.2.1 k) _).ne']
    ring
  -- amplitude gain
  have hampgain : 0 ≤ ∑ k, Qk (gaussProblem x pbg fm fc) s k *
      (Real.log ((EMstep (gaussProblem x pbg fm fc) s).amp k) -
        Real.log (s.amp k)) := by
    have hNr : (0 : ℝ) < N := by exact_mod_cast hN
    have := amp_update_gain (fun k => Qk (gaussProblem x pbg fm fc) s k) s.amp
      (N : ℝ) (fun k => Qk_pos_of_inv x pbg fm fc s hs hN k) hs.1 hNr
      (sum_Qk_of_inv x pbg fm fc s hs) hs.2.1
    exact this
  -- component density gain
  have hcompgain : ∀ k, 0 ≤ ∑ i, resp (gaussProblem x pbg fm fc) s i k *
      (Real.log (gaussDensity ((EMstep (gaussProblem x pbg fm fc) s).mean k)
          ((EMstep (gaussProblem x pbg fm fc) s).var k) (x i)) -
        Real.log (gaussDensity (s.mean k) (s.var k) (x i))) := by
    intro k
    apply gauss_update_gain (fun i => resp (gaussProblem x pbg fm fc) s i k) x
      (s.mean k) (s.var k)
      ((EMstep (gaussProblem x pbg fm fc) s).mean k)
      ((EMstep (gaussProblem x pbg fm fc) s).var k)
      hN (fun i => resp_pos_of_inv x pbg fm fc s hs i k)
      (hs.2.2.1 k) (hinv'.2.2.1 k)
    · by_cases h : k ∈ fm
      · left
        show newMean (gaussProblem x pbg fm fc) s k = s.mean k
        rw [newMean]
        simp only [gaussProblem]
        rw [if_pos h]
      · right
        show newMean (gaussProblem x pbg fm fc) s k = _
        rw [newMean]
        simp only [gaussProblem]
        rw [if_neg h]
        rfl
    · by_cases h : k ∈ fc
      · left
        show newVar (gaussProblem x pbg fm fc) s k = s.var k
        rw [newVar]
        simp only [gaussProblem]
        rw [if_pos h]
      · right
        show newVar (gaussProblem x pbg fm fc) s k = _
        rw [newVar]
        simp only [gaussProblem]
        rw [if_neg h]
        rfl
  -- assemble
  have hdouble : ∑ i, ∑ k, resp (gaussProblem x pbg fm fc) s i k *
      (Real.log ((EMstep (gaussProblem x pbg fm fc) s).amp k *
          gaussDensity ((EMstep (gaussProblem x pbg fm fc) s).mean k)
            ((EMstep (gaussProblem x pbg fm fc) s).var k) (x i)) -
        Real.log (s.amp k * gaussDensity (s.mean k) (s.var k) (x i))) =
      (∑ k, Qk (gaussProblem x pbg fm fc) s k *
        (Real.log ((EMstep (gaussProblem x pbg fm fc) s).amp k) -
          Real.log (s.amp k))) +
      ∑ k, ∑ i, resp (gaussProblem x pbg fm fc) s i k *
        (Real.log (gaussDensity ((EMstep (gaussProblem x pbg fm fc) s).mean k)
            ((EMstep (gaussProblem x pbg fm fc) s).var k) (x i)) -
          Real.log (gaussDensity (s.mean k) (s.var k) (x i))) := by
    rw [Finset.sum_congr rfl fun i _ => Finset.sum_congr rfl fun k _ => by
      rw [hsplit i k, mul_add]]
    rw [Finset.sum_congr rfl fun i _ => Finset.sum_add_distrib]
    rw [Finset.sum_add_distrib]
    congr 1
    · rw [Finset.sum_comm]
      apply Finset.sum_congr rfl
      intro k _
      rw [← Finset.sum_mul]
      rfl
    · exact Finset.sum_comm
  have hsum : ∑ i, (Real.log (denom (gaussProblem x pbg fm fc)
        (EMstep (gaussProblem x pbg fm fc) s) i) -
      Real.log (denom (gaussProblem x pbg fm fc) s i)) =
      logL (gaussProblem x pbg fm fc) (EMstep (gaussProblem x pbg fm fc) s) -
        logL (gaussProblem x pbg fm fc) s := by
    rw [Finset.sum_sub_distrib]
    rfl
  have hchain : ∑ i, ∑ k, resp (gaussProblem x pbg fm fc) s i k *
      (Real.log ((EMstep (gaussProblem x pbg fm fc) s).amp k *
          gaussDensity ((EMstep (gaussProblem x pbg fm fc) s).mean k)
            ((EMstep (gaussProblem x pbg fm fc) s).var k) (x i)) -
        Real.log (s.amp k * gaussDensity (s.mean k) (s.var k) (x i))) ≤
      logL (gaussProblem x pbg fm fc) (EMstep (gaussProblem x pbg fm fc) s) -
        logL (gaussProblem x pbg fm fc) s := by
    rw [← hsum]
    exact Finset.sum_le_sum fun i _ => hJ i
  have hgains : 0 ≤ ∑ k, ∑ i, resp (gaussProblem x pbg fm fc) s i k *
      (Real.log (gaussDensity ((EMstep (gaussProblem x pbg fm fc) s).mean k)
          ((EMstep (gaussProblem x pbg fm fc) s).var k) (x i)) -
        Real.log (gaussDensity (s.mean k) (s.var k) (x i))) :=
    Finset.sum_nonneg fun k _ => hcompgain k
  rw [hdouble] at hchain
  linarith

/-- C3: on noiseless, complete data (no per-sample noise covariance, no
selection predicate, no background), the observed-data log-likelihood is
non-decreasing across consecutive EM iterations, for any frozen-parameter
configuration, from any initial state satisfying the well-formedness
invariant, provided the sample set contains two distinct values. -/
theorem logL_nondecreasing {N K : ℕ} (x : Fin N → ℝ) (pbg : ℝ)
    (fm fc : Finset (Fin K)) (s0 : MixState ℝ K) (hN : 0 < N)
    (hx : ∃ i j, x i ≠ x j) (hs : EMInv s0) (t : ℕ) :
    logL (gaussProblem x pbg fm fc) (emIter (gaussProblem x pbg fm fc) t s0) ≤
      logL (gaussProblem x pbg fm fc)
        (emIter (gaussProblem x pbg fm fc) (t + 1) s0) := by
  have hinv : ∀ u, EMInv (emIter (gaussProblem x pbg fm fc) u s0) := by
    intro u
    induction u with
    | zero => exact hs
    | succ n ih =>
      have hstep : emIter (gaussProblem x pbg fm fc) (n + 1) s0 =
          EMstep (gaussProblem x pbg fm fc)
            (emIter (gaussProblem x pbg fm fc) n s0) := by
        unfold emIter
        exact Function.iterate_succ_apply' _ _ _
      rw [hstep]
      exact EMInv_EMstep x pbg fm fc _ ih hN hx
  have hstep : emIter (gaussProblem x pbg fm fc) (t + 1) s0 =
      EMstep (gaussProblem x pbg fm fc) (emIter (gaussProblem x pbg fm fc) t s0) := by
    unfold emIter
    exact Function.iterate_succ_apply' _ _ _
  rw [hstep]
  exact logL_le_EMstep x pbg fm fc _ (hinv t) hN hx

/-- Witness for C3 at a concrete problem: two samples `0, 1`, one component
started at mean `0`, variance `1`, amplitude `1`, no background, no frozen
parameters; the log-likelihood does not decrease over the first iteration. -/
theorem logL_nondecreasing_witness :
    logL (gaussProblem ![(0 : ℝ), 1] 1 ∅ ∅)
        (emIter (gaussProblem ![(0 : ℝ), 1] 1 ∅ ∅) 0 ⟨![1], ![0], ![1], 0⟩) ≤
      logL (gaussProblem ![(0 : ℝ), 1] 1 ∅ ∅)
        (emIter (gaussProblem ![(0 : ℝ), 1] 1 ∅ ∅) 1 ⟨![1], ![0], ![1], 0⟩) :=
  logL_nondecreasing ![(0 : ℝ), 1] 1 ∅ ∅ ⟨![1], ![0], ![1], 0⟩ (by norm_num)
    ⟨0, 1, by norm_num⟩
    ⟨fun k => by fin_cases k <;> norm_num,
      by simp,
      fun k => by fin_cases k <;> norm_num,
      rfl⟩ 0

end AstroDS
